import Mathlib

/-!
Shallow embedding of `src/ndnSIM/ndn-cxx/ndn-cxx/mpr-list.{hpp,cpp}` (class
`ndn::MPRList`): a list of (preference, name) delegations with a sortedness
flag, a mutation API (insert with conflict resolution, erase, sort) and a
TLV wire codec (encode in two modes, decode with structural validation).

The container and codec logic is translated from the source.  The external
collaborators that the repository uses but does not define under `src/`
(the `Delegation` pair from `delegation.hpp`, the `Name` type, the TLV type
constants, the `Block` parser and the nonNegativeInteger codec) are modelled
from the spec, each marked `Modelled from the spec:` in its doc comment.
-/

namespace ndn

namespace tlv

/-- Modelled from the spec: the generic "content" outer TLV-TYPE number
(one of the two registered outer tags accepted by the codec). -/
def Content : Nat := 21

/-- Modelled from the spec: the "list of forwarding hints" / MPRList outer
TLV-TYPE number (the second registered outer tag). -/
def MPRList : Nat := 30

/-- Modelled from the spec: the TLV-TYPE number of one Delegation entry. -/
def LinkDelegation : Nat := 31

/-- Modelled from the spec: the TLV-TYPE number of the Preference field. -/
def LinkPreference : Nat := 30

/-- Modelled from the spec: the TLV-TYPE number of a Name block. -/
def Name : Nat := 7

end tlv

/-- Modelled from the spec: the external `Name` type, an opaque totally
ordered key with structural equality.  Only its total order, equality and
self-codec are visible to this component, so it is modelled as a wrapped
natural number. -/
structure Name where
  val : Nat
deriving DecidableEq, Repr

/-- Modelled from the spec: the external total order on `Name`. -/
def Name.lt (a b : Name) : Bool :=
  a.val < b.val

/-- Modelled from the spec: `Delegation` (from `delegation.hpp`, outside
`src/`), an immutable pair of a non-negative integer preference and a name. -/
structure Delegation where
  preference : Nat
  name : Name
deriving DecidableEq, Repr

/-- Modelled from the spec: `operator<` on `Delegation` — lexicographic by
`preference` (ascending), then by the name's own total order. -/
def Delegation.lt (a b : Delegation) : Bool :=
  a.preference < b.preference ||
    (a.preference == b.preference && Name.lt a.name b.name)

/-- Non-strict comparison derived from `Delegation.lt`: `a` is not above `b`. -/
def Delegation.le (a b : Delegation) : Bool :=
  !(Delegation.lt b a)

/-- A delegation sequence in non-decreasing `Delegation` order. -/
def SortedDels (dels : List Delegation) : Prop :=
  dels.Pairwise (fun a b => Delegation.le a b = true)

/-- `std::upper_bound` + `vector::insert` of `MPRList::insertImpl` on a sorted
vector: the new delegation is placed before the first strictly greater
element, i.e. after all existing elements that compare equal or lower. -/
def insertSorted (del : Delegation) : List Delegation → List Delegation
  | [] => [del]
  | x :: xs =>
    if Delegation.lt del x then del :: x :: xs else x :: insertSorted del xs

/-- The `ndn::MPRList` container: a sortedness flag and the delegation
vector `m_dels`. -/
structure MPRList where
  m_isSorted : Bool
  m_dels : List Delegation
deriving DecidableEq, Repr

/-- `MPRList::size()`. -/
def MPRList.size (l : MPRList) : Nat :=
  l.m_dels.length

/-- `MPRList::empty()`. -/
def MPRList.isEmpty (l : MPRList) : Bool :=
  l.m_dels.isEmpty

/-- `MPRList::isSorted()`. -/
def MPRList.isSorted (l : MPRList) : Bool :=
  l.m_isSorted

/-- `MPRList::insertImpl`: append at the back when the list is unsorted,
otherwise insert at the `upper_bound` position. -/
def MPRList.insertImpl (l : MPRList) (preference : Nat) (name : Name) :
    MPRList :=
  if !l.m_isSorted then
    { l with m_dels := l.m_dels ++ [⟨preference, name⟩] }
  else
    { l with m_dels := insertSorted ⟨preference, name⟩ l.m_dels }

/-- The erase condition of `MPRList::eraseImpl`: the name matches, and the
preference matches when one is given. -/
def eraseMatch (preference : Option Nat) (name : Name) (d : Delegation) :
    Bool :=
  (preference.isNone || preference == some d.preference) && d.name == name

/-- The element loop of `MPRList::eraseImpl`: drop every delegation that
matches, counting the dropped elements; relative order of the rest is
untouched. -/
def eraseLoop (preference : Option Nat) (name : Name) :
    List Delegation → List Delegation × Nat
  | [] => ([], 0)
  | d :: ds =>
    let (rest, n) := eraseLoop preference name ds
    if eraseMatch preference name d then
      (rest, n + 1)
    else
      (d :: rest, n)

/-- `MPRList::eraseImpl`: returns the updated list and the erase count. -/
def MPRList.eraseImpl (l : MPRList) (preference : Option Nat) (name : Name) :
    MPRList × Nat :=
  let (ds, n) := eraseLoop preference name l.m_dels
  ({ l with m_dels := ds }, n)

/-- `MPRList::InsertConflictResolution`. -/
inductive InsertConflictResolution where
  | INS_REPLACE
  | INS_APPEND
  | INS_SKIP
deriving DecidableEq, Repr

/-- `MPRList::insert(preference, name, onConflict)`: returns the updated
list and whether the delegation was inserted. -/
def MPRList.insert (l : MPRList) (preference : Nat) (name : Name)
    (onConflict : InsertConflictResolution) : MPRList × Bool :=
  match onConflict with
  | .INS_REPLACE =>
    let l' := (l.eraseImpl none name).1
    (l'.insertImpl preference name, true)
  | .INS_APPEND =>
    (l.insertImpl preference name, true)
  | .INS_SKIP =>
    if !(l.m_dels.any fun del => del.name == name) then
      (l.insertImpl preference name, true)
    else
      (l, false)

/-- `MPRList::insert(del, onConflict)` (the `Delegation` overload). -/
def MPRList.insertDel (l : MPRList) (del : Delegation)
    (onConflict : InsertConflictResolution) : MPRList × Bool :=
  l.insert del.preference del.name onConflict

/-- `MPRList::erase(preference, name)`. -/
def MPRList.erase (l : MPRList) (preference : Nat) (name : Name) :
    MPRList × Nat :=
  l.eraseImpl (some preference) name

/-- `MPRList::erase(del)`. -/
def MPRList.eraseDel (l : MPRList) (del : Delegation) : MPRList × Nat :=
  l.eraseImpl (some del.preference) del.name

/-- `MPRList::erase(name)`. -/
def MPRList.eraseName (l : MPRList) (name : Name) : MPRList × Nat :=
  l.eraseImpl none name

/-- The re-insertion loop of `MPRList::sort`: replay a snapshot of
delegations, in order, through `insertImpl`. -/
def replayInsertImpl (init : MPRList) (dels : List Delegation) : MPRList :=
  dels.foldl (fun l del => l.insertImpl del.preference del.name) init

/-- `MPRList::sort()`: no-op when already sorted; otherwise swap the entries
out, set the flag, and re-insert every snapshot entry in original order. -/
def MPRList.sort (l : MPRList) : MPRList :=
  if l.m_isSorted then l
  else replayInsertImpl { m_isSorted := true, m_dels := [] } l.m_dels

/-- `MPRList()` — the default constructor: empty and sorted. -/
def MPRList.new : MPRList :=
  { m_isSorted := true, m_dels := [] }

/-- `MPRList(std::initializer_list)`: insert every given delegation with
`INS_REPLACE` into an empty sorted list. -/
def MPRList.ofList (dels : List Delegation) : MPRList :=
  dels.foldl (fun l del => (l.insertDel del .INS_REPLACE).1) MPRList.new

/-- `operator==(const MPRList&, const MPRList&)`: element-wise equality of
the two `m_dels` vectors; the sortedness flag does not participate. -/
def MPRList.eq (a b : MPRList) : Bool :=
  a.m_dels == b.m_dels

/-- Modelled from the spec: the value bytes of a leaf TLV block, abstracted
by what the external codecs make of them — a payload that the
nonNegativeInteger decoder accepts, one that the Name decoder accepts, the
child blocks of a composite block, or bytes neither codec accepts. -/
inductive Payload where
  | nni (n : Nat)
  | nameData (nm : Name)
  | composite
  | corrupt
deriving DecidableEq, Repr

/-- Modelled from the spec: the external `Block` type — a parsed TLV node
exposing its TLV-TYPE, its child elements, and its raw payload. -/
inductive Block where
  | mk (type : Nat) (children : List Block) (payload : Payload)

/-- `Block::type()`. -/
def Block.type : Block → Nat
  | .mk t _ _ => t

/-- `Block::elements()` (after `parse()`). -/
def Block.elements : Block → List Block
  | .mk _ cs _ => cs

/-- The raw payload of a block, as seen by the external leaf codecs. -/
def Block.payload : Block → Payload
  | .mk _ _ p => p

/-- Modelled from the spec: the external `readNonNegativeInteger`, which
decodes a block's payload as a non-negative integer or raises a low-level
`tlv::Error` (here: `none`) on a malformed payload. -/
def readNonNegativeInteger (b : Block) : Option Nat :=
  match b.payload with
  | .nni n => some n
  | _ => none

/-- Modelled from the spec: the external `Name::wireDecode`, which decodes
a block's payload as a Name or raises a low-level `tlv::Error` (here:
`none`) on a malformed payload. -/
def Name.wireDecodeBlock (b : Block) : Option Name :=
  match b.payload with
  | .nameData nm => some nm
  | _ => none

/-- The errors thrown by `MPRList`: `std::invalid_argument`, the component's
own `MPRList::Error`, and `MPRList::Error` raised by `NDN_THROW_NESTED` with
a lower-level `tlv::Error` as nested cause. -/
inductive Err where
  | invalidArgument (msg : String)
  | error (msg : String)
  | nested (msg : String)
deriving DecidableEq, Repr

/-- `MPRList::isValidTlvType`: only the two registered outer TLV-TYPE
numbers are accepted. -/
def MPRList.isValidTlvType (type : Nat) : Bool :=
  type == tlv.Content || type == tlv.MPRList

/-- The per-child validation of the `wireDecode` loop body: the child must
be a `LinkDelegation`, its first grandchild a `LinkPreference` holding a
valid non-negative integer, and the next grandchild a decodable `Name`. -/
def decodeDelegation (del : Block) : Except Err Delegation :=
  if del.type != tlv.LinkDelegation then
    .error (.error ("Unexpected TLV-TYPE " ++ toString del.type ++
      " while decoding Delegation"))
  else
    match del.elements with
    | [] => .error (.error "Missing Preference field in Delegation")
    | val :: rest =>
      if val.type != tlv.LinkPreference then
        .error (.error "Missing Preference field in Delegation")
      else
        match readNonNegativeInteger val with
        | none => .error (.nested "Invalid Preference field in Delegation")
        | some preference =>
          match rest with
          | [] => .error (.error "Missing Name field in Delegation")
          | val2 :: _ =>
            if val2.type != tlv.Name then
              .error (.error "Missing Name field in Delegation")
            else
              match Name.wireDecodeBlock val2 with
              | none => .error (.nested "Invalid Name field in Delegation")
              | some name => .ok ⟨preference, name⟩

/-- One iteration of the `wireDecode` loop: validate the child, then
`insertImpl` the decoded delegation. -/
def decodeStep (l : MPRList) (del : Block) : Except Err MPRList := do
  let d ← decodeDelegation del
  pure (l.insertImpl d.preference d.name)

/-- The body of `MPRList::wireDecode` after the outer type check: clear the
entries, set the flag to `wantSort`, validate and `insertImpl` each child in
order, and reject an empty result. -/
def MPRList.wireDecodeBody (block : Block) (wantSort : Bool) :
    Except Err MPRList := do
  let init : MPRList := { m_isSorted := wantSort, m_dels := [] }
  let l ← block.elements.foldlM decodeStep init
  if l.size == 0 then
    throw (.error "Empty MPRList")
  else
    pure l

/-- `MPRList::wireDecode(block, wantSort)`: functional version returning the
decoded list or the thrown error. -/
def MPRList.wireDecode (block : Block) (wantSort : Bool) :
    Except Err MPRList :=
  if !MPRList.isValidTlvType block.type then
    .error (.error ("Unexpected TLV-TYPE " ++ toString block.type ++
      " while decoding MPRList"))
  else
    MPRList.wireDecodeBody block wantSort

/-- The TLV block for one delegation, as written by the encoder loop body
(a `LinkDelegation` block holding a Preference block then a Name block). -/
def encodeDelegationBlock (d : Delegation) : Block :=
  .mk tlv.LinkDelegation
    [ .mk tlv.LinkPreference [] (.nni d.preference),
      .mk tlv.Name [] (.nameData d.name) ]
    .composite

/-- The encoder loop over the delegations: iterate in reverse order and
prepend each encoded delegation to the backward-growing output, so the
resulting children stand in forward iteration order. -/
def encodeChildren (dels : List Delegation) : List Block :=
  dels.reverse.foldl (fun acc del => encodeDelegationBlock del :: acc) []

/-- `MPRList::wireEncode` seen at the parsed-block level: the block whose
wire bytes the encoder writes, or the error thrown (unknown outer TLV-TYPE,
or empty list). -/
def MPRList.wireEncodeBlock (l : MPRList) (type : Nat) : Except Err Block :=
  if !MPRList.isValidTlvType type then
    .error (.invalidArgument ("Unexpected TLV-TYPE " ++ toString type ++
      " while encoding MPRList"))
  else if l.size == 0 then
    .error (.error "Empty MPRList")
  else
    .ok (.mk type (encodeChildren l.m_dels) .composite)

/-- Modelled from the spec: a span of output bytes produced by one call to
an external prepend primitive — a TLV-TYPE or TLV-LENGTH variable-length
number, the value bytes of a nonNegativeInteger, or a whole Name block. -/
inductive Atom where
  | varNum (n : Nat)
  | nniValue (n : Nat)
  | nameBlock (nm : Name)
deriving DecidableEq, Repr

/-- Modelled from the spec: the byte size of the variable-length TLV number
encoding of `n` (the external TLV-TYPE / TLV-LENGTH codec). -/
def varNumberSize (n : Nat) : Nat :=
  if n < 253 then 1
  else if n < 2 ^ 16 then 3
  else if n < 2 ^ 32 then 5
  else 9

/-- Modelled from the spec: the byte size of the nonNegativeInteger value
encoding of `n` (the external integer codec). -/
def nniSize (n : Nat) : Nat :=
  if n < 2 ^ 8 then 1
  else if n < 2 ^ 16 then 2
  else if n < 2 ^ 32 then 4
  else 8

/-- Modelled from the spec: the wire size of a self-encoded Name block
(TLV-TYPE, TLV-LENGTH, then the name's payload bytes). -/
def Name.wireSize (nm : Name) : Nat :=
  varNumberSize tlv.Name + varNumberSize (nniSize nm.val) + nniSize nm.val

/-- The byte size a span of output occupies. -/
def Atom.size : Atom → Nat
  | .varNum n => varNumberSize n
  | .nniValue n => nniSize n
  | .nameBlock nm => Name.wireSize nm

/-- Modelled from the spec: the interface of `EncodingImpl<TAG>` as used by
`MPRList::wireEncode` — each prepend primitive updates the backend state and
returns the number of bytes it prepended. -/
structure EncodingImpl (σ : Type) where
  prependVarNumber : σ → Nat → σ × Nat
  prependNonNegativeIntegerBlock : σ → Nat → Nat → σ × Nat
  prependName : σ → Name → σ × Nat

/-- Modelled from the spec: the size-estimation backend (`EncodingEstimator`)
keeps no buffer and only reports sizes. -/
def estimatorImpl : EncodingImpl Unit where
  prependVarNumber := fun _ n => ((), varNumberSize n)
  prependNonNegativeIntegerBlock := fun _ t n =>
    ((), varNumberSize t + varNumberSize (nniSize n) + nniSize n)
  prependName := fun _ nm => ((), Name.wireSize nm)

/-- Modelled from the spec: the materializing backend (`EncodingBuffer`)
prepends spans to a backward-growing buffer (list head = earliest byte) and
reports the same sizes. -/
def encoderImpl : EncodingImpl (List Atom) where
  prependVarNumber := fun buf n => (Atom.varNum n :: buf, varNumberSize n)
  prependNonNegativeIntegerBlock := fun buf t n =>
    (Atom.varNum t :: Atom.varNum (nniSize n) :: Atom.nniValue n :: buf,
      varNumberSize t + varNumberSize (nniSize n) + nniSize n)
  prependName := fun buf nm => (Atom.nameBlock nm :: buf, Name.wireSize nm)

/-- The body of the encoder loop of `MPRList::wireEncode` for one
delegation: encode the name, prepend the Preference block, prepend this
delegation's TLV-LENGTH and TLV-TYPE, and add its length to the total. -/
def encodeDelegationStep {σ : Type} (impl : EncodingImpl σ)
    (st : σ × Nat) (d : Delegation) : σ × Nat :=
  let (enc, totalLen) := st
  let (enc, n1) := impl.prependName enc d.name
  let delLen := n1
  let (enc, n2) :=
    impl.prependNonNegativeIntegerBlock enc tlv.LinkPreference d.preference
  let delLen := delLen + n2
  let (enc, n3) := impl.prependVarNumber enc delLen
  let delLen := delLen + n3
  let (enc, n4) := impl.prependVarNumber enc tlv.LinkDelegation
  let delLen := delLen + n4
  (enc, totalLen + delLen)

/-- `MPRList::wireEncode(encoder, type)` — the template shared by the two
instantiations: validate the outer type, reject an empty list, process the
delegations in reverse iteration order, then prepend the overall TLV-LENGTH
and the outer TLV-TYPE; returns the final backend state and the total
number of bytes written. -/
def MPRList.wireEncodeImpl {σ : Type} (impl : EncodingImpl σ) (l : MPRList)
    (type : Nat) (enc : σ) : Except Err (σ × Nat) :=
  if !MPRList.isValidTlvType type then
    .error (.invalidArgument ("Unexpected TLV-TYPE " ++ toString type ++
      " while encoding MPRList"))
  else if l.size == 0 then
    .error (.error "Empty MPRList")
  else
    let (enc, totalLen) :=
      l.m_dels.reverse.foldl (encodeDelegationStep impl) (enc, 0)
    let (enc, n5) := impl.prependVarNumber enc totalLen
    let totalLen := totalLen + n5
    let (enc, n6) := impl.prependVarNumber enc type
    let totalLen := totalLen + n6
    .ok (enc, totalLen)

/-- The `EncodingEstimator` instantiation of `wireEncode`: total length
only. -/
def MPRList.wireEncodeEstimate (l : MPRList) (type : Nat) :
    Except Err Nat :=
  (l.wireEncodeImpl estimatorImpl type ()).map Prod.snd

/-- The `EncodingBuffer` instantiation of `wireEncode`: the produced output
and the total length. -/
def MPRList.wireEncodeBuffer (l : MPRList) (type : Nat) :
    Except Err (List Atom × Nat) :=
  l.wireEncodeImpl encoderImpl type []

/-- The sortedness invariant tied to the flag: whenever `m_isSorted` is
true, the entries stand in non-decreasing `Delegation` order. -/
def SortedInv (l : MPRList) : Prop :=
  l.m_isSorted = true → SortedDels l.m_dels

/-! ### Order lemmas -/

theorem Delegation.lt_iff (a b : Delegation) :
    Delegation.lt a b = true ↔
      a.preference < b.preference ∨
        (a.preference = b.preference ∧ a.name.val < b.name.val) := by
  simp [Delegation.lt, Name.lt]

theorem Delegation.lt_eq_false_iff (a b : Delegation) :
    Delegation.lt a b = false ↔
      ¬(a.preference < b.preference ∨
        (a.preference = b.preference ∧ a.name.val < b.name.val)) := by
  rw [← Delegation.lt_iff]
  cases h : Delegation.lt a b <;> simp

theorem Delegation.le_of_lt (a b : Delegation)
    (h : Delegation.lt a b = true) : Delegation.le a b = true := by
  rw [Delegation.lt_iff] at h
  simp only [Delegation.le, Bool.not_eq_true', Delegation.lt_eq_false_iff]
  omega

theorem Delegation.le_of_not_lt (a b : Delegation)
    (h : Delegation.lt b a = false) : Delegation.le a b = true := by
  simp only [Delegation.le, h, Bool.not_false]

theorem Delegation.le_trans (a b c : Delegation)
    (h1 : Delegation.le a b = true) (h2 : Delegation.le b c = true) :
    Delegation.le a c = true := by
  simp only [Delegation.le, Bool.not_eq_true', Delegation.lt_eq_false_iff]
    at h1 h2 ⊢
  omega

/-! ### Sorted-insertion lemmas -/

theorem SortedDels_iff (ds : List Delegation) :
    SortedDels ds ↔ ds.Pairwise (fun a b => Delegation.le a b = true) :=
  Iff.rfl

theorem insertSorted_perm (d : Delegation) (xs : List Delegation) :
    List.Perm (insertSorted d xs) (d :: xs) := by
  induction xs with
  | nil => exact List.Perm.refl _
  | cons x xs ih =>
    rw [insertSorted]
    split
    · exact List.Perm.refl _
    · exact (List.Perm.cons x ih).trans (List.Perm.swap d x xs)

theorem insertSorted_pairwise (d : Delegation) (xs : List Delegation)
    (h : SortedDels xs) : SortedDels (insertSorted d xs) := by
  induction xs with
  | nil => simp [insertSorted, SortedDels]
  | cons x xs ih =>
    rw [SortedDels_iff, List.pairwise_cons] at h
    rw [insertSorted]
    split
    · rename_i hlt
      rw [SortedDels_iff, List.pairwise_cons]
      refine ⟨?_, ?_⟩
      · intro y hy
        rcases List.mem_cons.mp hy with heq | hy
        · exact heq ▸ Delegation.le_of_lt d x hlt
        · exact Delegation.le_trans d x y (Delegation.le_of_lt d x hlt)
            (h.1 y hy)
      · exact List.Pairwise.cons h.1 h.2
    · rename_i hnlt
      rw [SortedDels_iff, List.pairwise_cons]
      refine ⟨?_, ih ((SortedDels_iff xs).mpr h.2)⟩
      intro y hy
      rcases List.mem_cons.mp ((insertSorted_perm d xs).mem_iff.mp hy) with
        heq | hy
      · exact heq ▸ Delegation.le_of_not_lt x d
          (Bool.not_eq_true _ ▸ hnlt)
      · exact h.1 y hy

/-! ### insertImpl / eraseImpl / replay lemmas -/

theorem insertImpl_isSorted (l : MPRList) (p : Nat) (n : Name) :
    (l.insertImpl p n).m_isSorted = l.m_isSorted := by
  rw [MPRList.insertImpl]
  split <;> rfl

theorem insertImpl_dels_of_sorted (l : MPRList) (p : Nat) (n : Name)
    (h : l.m_isSorted = true) :
    (l.insertImpl p n).m_dels = insertSorted ⟨p, n⟩ l.m_dels := by
  simp [MPRList.insertImpl, h]

theorem insertImpl_dels_of_unsorted (l : MPRList) (p : Nat) (n : Name)
    (h : l.m_isSorted = false) :
    (l.insertImpl p n).m_dels = l.m_dels ++ [⟨p, n⟩] := by
  simp [MPRList.insertImpl, h]

theorem insertImpl_perm (l : MPRList) (p : Nat) (n : Name) :
    List.Perm (l.insertImpl p n).m_dels (⟨p, n⟩ :: l.m_dels) := by
  rw [MPRList.insertImpl]
  split
  · exact List.perm_append_singleton _ _
  · exact insertSorted_perm _ _

theorem insertImpl_sortedInv (l : MPRList) (p : Nat) (n : Name)
    (h : SortedInv l) : SortedInv (l.insertImpl p n) := by
  intro hf
  rw [insertImpl_isSorted] at hf
  rw [insertImpl_dels_of_sorted l p n hf]
  exact insertSorted_pairwise _ _ (h hf)

theorem eraseLoop_eq (pref : Option Nat) (n : Name) (ds : List Delegation) :
    eraseLoop pref n ds =
      (ds.filter (fun d => !eraseMatch pref n d),
        ds.countP (eraseMatch pref n)) := by
  induction ds with
  | nil => rfl
  | cons d ds ih =>
    rw [eraseLoop, ih]
    by_cases h : eraseMatch pref n d = true
    · simp [h, List.countP_cons]
    · simp [h, List.countP_cons, Bool.eq_false_iff.mpr h]

theorem eraseImpl_isSorted (l : MPRList) (pref : Option Nat) (n : Name) :
    (l.eraseImpl pref n).1.m_isSorted = l.m_isSorted := by
  rw [MPRList.eraseImpl]

theorem eraseImpl_dels (l : MPRList) (pref : Option Nat) (n : Name) :
    (l.eraseImpl pref n).1.m_dels =
      l.m_dels.filter (fun d => !eraseMatch pref n d) := by
  rw [MPRList.eraseImpl, eraseLoop_eq]

theorem eraseImpl_count (l : MPRList) (pref : Option Nat) (n : Name) :
    (l.eraseImpl pref n).2 = l.m_dels.countP (eraseMatch pref n) := by
  rw [MPRList.eraseImpl, eraseLoop_eq]

theorem eraseImpl_sortedInv (l : MPRList) (pref : Option Nat) (n : Name)
    (h : SortedInv l) : SortedInv (l.eraseImpl pref n).1 := by
  intro hf
  rw [eraseImpl_isSorted] at hf
  rw [eraseImpl_dels]
  exact List.Pairwise.sublist (List.filter_sublist _) (h hf)

theorem replay_isSorted (ds : List Delegation) (init : MPRList) :
    (replayInsertImpl init ds).m_isSorted = init.m_isSorted := by
  induction ds generalizing init with
  | nil => rfl
  | cons d ds ih =>
    rw [replayInsertImpl, List.foldl_cons, ← replayInsertImpl, ih,
      insertImpl_isSorted]

theorem replay_perm (ds : List Delegation) (init : MPRList) :
    List.Perm (replayInsertImpl init ds).m_dels (ds ++ init.m_dels) := by
  induction ds generalizing init with
  | nil => exact List.Perm.refl _
  | cons d ds ih =>
    rw [replayInsertImpl, List.foldl_cons, ← replayInsertImpl]
    refine (ih _).trans ?_
    refine (List.Perm.append_left ds (insertImpl_perm init d.preference
      d.name)).trans ?_
    exact List.perm_middle

theorem replay_sortedInv (ds : List Delegation) (init : MPRList)
    (h : SortedInv init) : SortedInv (replayInsertImpl init ds) := by
  induction ds generalizing init with
  | nil => exact h
  | cons d ds ih =>
    rw [replayInsertImpl, List.foldl_cons, ← replayInsertImpl]
    exact ih _ (insertImpl_sortedInv _ _ _ h)

theorem replay_unsorted (ds : List Delegation) (init : MPRList)
    (h : init.m_isSorted = false) :
    (replayInsertImpl init ds).m_dels = init.m_dels ++ ds := by
  induction ds generalizing init with
  | nil => simp [replayInsertImpl]
  | cons d ds ih =>
    rw [replayInsertImpl, List.foldl_cons, ← replayInsertImpl]
    rw [ih _ (by rw [insertImpl_isSorted]; exact h),
      insertImpl_dels_of_unsorted _ _ _ h, List.append_assoc]
    rfl

/-! ### Decode lemmas -/

theorem foldl_cons_rev {α β : Type} (f : α → β) (ds : List α) :
    ∀ acc : List β,
      ds.foldl (fun a d => f d :: a) acc = (ds.map f).reverse ++ acc := by
  induction ds with
  | nil => intro acc; rfl
  | cons d ds ih =>
    intro acc
    rw [List.foldl_cons, ih]
    simp

theorem encodeChildren_eq_map (ds : List Delegation) :
    encodeChildren ds = ds.map encodeDelegationBlock := by
  rw [encodeChildren, foldl_cons_rev]
  simp

theorem decodeDelegation_encode (d : Delegation) :
    decodeDelegation (encodeDelegationBlock d) = .ok d :=
  rfl

theorem decodeStep_encode (l : MPRList) (d : Delegation) :
    decodeStep l (encodeDelegationBlock d) =
      .ok (l.insertImpl d.preference d.name) :=
  rfl

theorem foldlM_decodeStep_map (ds : List Delegation) (init : MPRList) :
    List.foldlM decodeStep init (ds.map encodeDelegationBlock) =
      .ok (replayInsertImpl init ds) := by
  induction ds generalizing init with
  | nil => rfl
  | cons d ds ih =>
    rw [List.map_cons, List.foldlM_cons, decodeStep_encode]
    show List.foldlM decodeStep (init.insertImpl d.preference d.name)
      (ds.map encodeDelegationBlock) = _
    rw [ih]
    rfl

theorem foldlM_decodeStep_inv (P : MPRList → Prop)
    (hP : ∀ l p n, P l → P (l.insertImpl p n)) :
    ∀ (blocks : List Block) (init out : MPRList),
      List.foldlM decodeStep init blocks = .ok out → P init → P out := by
  intro blocks
  induction blocks with
  | nil =>
    intro init out h hp
    injection h with h
    exact h ▸ hp
  | cons b bs ih =>
    intro init out h hp
    rw [List.foldlM_cons] at h
    cases hd : decodeDelegation b with
    | error e =>
      have hb : decodeStep init b = .error e := by
        rw [decodeStep, hd]
        rfl
      rw [hb] at h
      exact absurd h (by simp [Bind.bind, Except.bind])
    | ok d =>
      have hb : decodeStep init b =
          .ok (init.insertImpl d.preference d.name) := by
        rw [decodeStep, hd]
        rfl
      rw [hb] at h
      exact ih _ _ h (hP _ _ _ hp)

theorem wireDecodeBody_ok (block : Block) (ws : Bool) (out : MPRList)
    (h : MPRList.wireDecodeBody block ws = .ok out) :
    List.foldlM decodeStep { m_isSorted := ws, m_dels := [] }
      block.elements = .ok out ∧ out.m_dels ≠ [] := by
  rw [MPRList.wireDecodeBody] at h
  cases hf : List.foldlM decodeStep
      { m_isSorted := ws, m_dels := ([] : List Delegation) }
      block.elements with
  | error e =>
    rw [hf] at h
    exact absurd h (by simp [Bind.bind, Except.bind])
  | ok l =>
    rw [hf] at h
    by_cases hz : l.size == 0
    · simp [Bind.bind, Except.bind, hz] at h
    · simp only [Bind.bind, Except.bind, hz, Bool.false_eq_true,
        if_false] at h
      injection h with h
      subst h
      refine ⟨rfl, ?_⟩
      intro hnil
      apply hz
      simp [MPRList.size, hnil]

theorem wireDecode_valid (block : Block) (ws : Bool)
    (h : MPRList.isValidTlvType block.type = true) :
    MPRList.wireDecode block ws = MPRList.wireDecodeBody block ws := by
  simp [MPRList.wireDecode, h]

theorem wireDecode_invalid (block : Block) (ws : Bool)
    (h : MPRList.isValidTlvType block.type = false) :
    MPRList.wireDecode block ws =
      .error (.error ("Unexpected TLV-TYPE " ++ toString block.type ++
        " while decoding MPRList")) := by
  simp [MPRList.wireDecode, h]

theorem wireEncodeBlock_ok (l : MPRList) (type : Nat)
    (hty : MPRList.isValidTlvType type = true) (hne : l.m_dels ≠ []) :
    l.wireEncodeBlock type =
      .ok (.mk type (l.m_dels.map encodeDelegationBlock) .composite) := by
  rw [MPRList.wireEncodeBlock]
  simp [hty, MPRList.size, encodeChildren_eq_map, hne]

theorem replay_length (ds : List Delegation) (init : MPRList) :
    (replayInsertImpl init ds).m_dels.length =
      ds.length + init.m_dels.length := by
  rw [(replay_perm ds init).length_eq, List.length_append]

theorem wireDecode_encoded (l : MPRList) (type : Nat) (wantSort : Bool)
    (hty : MPRList.isValidTlvType type = true) (hne : l.m_dels ≠ []) :
    MPRList.wireDecode
        (.mk type (l.m_dels.map encodeDelegationBlock) .composite) wantSort =
      .ok (replayInsertImpl { m_isSorted := wantSort, m_dels := [] }
        l.m_dels) := by
  rw [wireDecode_valid
    (.mk type (l.m_dels.map encodeDelegationBlock) .composite) wantSort hty,
    MPRList.wireDecodeBody]
  show (List.foldlM decodeStep { m_isSorted := wantSort, m_dels := [] }
    (l.m_dels.map encodeDelegationBlock)).bind _ = _
  rw [foldlM_decodeStep_map]
  have hsz : ((replayInsertImpl { m_isSorted := wantSort, m_dels := [] }
      l.m_dels).size == 0) = false := by
    simp only [MPRList.size, replay_length, List.length_nil, Nat.add_zero]
    simpa [Nat.pos_iff_ne_zero] using
      List.length_pos.mpr hne
  show (if (replayInsertImpl { m_isSorted := wantSort, m_dels := [] }
      l.m_dels).size == 0 then _ else _) = _
  rw [hsz]
  rfl

/-! ### Concrete sample data for the witnesses -/

/-- The spec's concrete scenario: entries (10, name 1) and (5, name 2)
held in an unsorted list. -/
def sampleUnsorted : MPRList :=
  { m_isSorted := false, m_dels := [⟨10, ⟨1⟩⟩, ⟨5, ⟨2⟩⟩] }

/-- A sorted two-entry sample list. -/
def sampleSorted : MPRList :=
  { m_isSorted := true, m_dels := [⟨5, ⟨2⟩⟩, ⟨10, ⟨1⟩⟩] }

/-- An empty sorted list. -/
def sampleEmpty : MPRList :=
  { m_isSorted := true, m_dels := [] }

/-! ### The claims -/

/-- C1: for every non-empty `MPRList` (sorted or not) and every valid outer
TLV type, the block written by `wireEncode` decodes successfully; with
`wantSort = false` the decoded entries equal the original entries in
iteration order, and with `wantSort = true` they are a permutation of the
original entries in non-decreasing Delegation order. -/
theorem wireEncode_wireDecode_roundtrip (l : MPRList) (type : Nat)
    (wantSort : Bool) (hne : l.m_dels ≠ [])
    (hty : MPRList.isValidTlvType type = true) :
    ∃ blk, l.wireEncodeBlock type = .ok blk ∧
      ∃ l2, MPRList.wireDecode blk wantSort = .ok l2 ∧
        (wantSort = false → l2.m_dels = l.m_dels) ∧
        (wantSort = true →
          List.Perm l2.m_dels l.m_dels ∧ SortedDels l2.m_dels) := by
  refine ⟨_, wireEncodeBlock_ok l type hty hne,
    _, wireDecode_encoded l type wantSort hty hne, ?_, ?_⟩
  · intro hws
    subst hws
    rw [replay_unsorted l.m_dels _ rfl]
    rfl
  · intro hws
    subst hws
    refine ⟨?_, ?_⟩
    · simpa using replay_perm l.m_dels { m_isSorted := true, m_dels := [] }
    · exact replay_sortedInv l.m_dels { m_isSorted := true, m_dels := [] }
        (fun _ => List.Pairwise.nil)
        (by rw [replay_isSorted])

/-- Witness for C1 at the spec's concrete scenario: the unsorted list
[(10, name 1), (5, name 2)], the content tag, and `wantSort = true`. -/
theorem wireEncode_wireDecode_roundtrip_witness :
    (sampleUnsorted.m_dels ≠ [] ∧ MPRList.isValidTlvType 21 = true) ∧
    ∃ blk, sampleUnsorted.wireEncodeBlock 21 = .ok blk ∧
      ∃ l2, MPRList.wireDecode blk true = .ok l2 ∧
        (true = false → l2.m_dels = sampleUnsorted.m_dels) ∧
        (true = true → List.Perm l2.m_dels sampleUnsorted.m_dels ∧
          SortedDels l2.m_dels) :=
  ⟨⟨by decide, by decide⟩,
    wireEncode_wireDecode_roundtrip sampleUnsorted 21 true
      (by decide) (by decide)⟩

/-- C2: when `m_isSorted` is true the entries are in non-decreasing
Delegation order, and this invariant is preserved by insert under every
conflict policy, by erase, by sort, and by a successful `wireDecode`; when
the flag is false, insert and erase never reorder: the surviving entries
keep their relative order (a filter of the original sequence) and a new
entry goes to the end. -/
theorem sorted_flag_invariant :
    (∀ (l : MPRList) (p : Nat) (n : Name)
        (pol : InsertConflictResolution),
      SortedInv l → SortedInv (l.insert p n pol).1) ∧
    (∀ (l : MPRList) (pref : Option Nat) (n : Name),
      SortedInv l → SortedInv (l.eraseImpl pref n).1) ∧
    (∀ l : MPRList, SortedInv l → SortedInv l.sort) ∧
    (∀ (b : Block) (ws : Bool) (l2 : MPRList),
      MPRList.wireDecode b ws = .ok l2 → SortedInv l2) ∧
    (∀ (l : MPRList) (p : Nat) (n : Name), l.m_isSorted = false →
      (l.insert p n .INS_REPLACE).1.m_dels =
        l.m_dels.filter (fun d => !(d.name == n)) ++ [⟨p, n⟩] ∧
      (l.insert p n .INS_APPEND).1.m_dels = l.m_dels ++ [⟨p, n⟩] ∧
      ((l.insert p n .INS_SKIP).1.m_dels = l.m_dels ∨
        (l.insert p n .INS_SKIP).1.m_dels = l.m_dels ++ [⟨p, n⟩])) ∧
    (∀ (l : MPRList) (pref : Option Nat) (n : Name),
      (l.eraseImpl pref n).1.m_dels =
        l.m_dels.filter (fun d => !eraseMatch pref n d)) := by
  refine ⟨?_, ?_, ?_, ?_, ?_, ?_⟩
  · intro l p n pol h
    cases pol with
    | INS_REPLACE =>
      exact insertImpl_sortedInv _ _ _ (eraseImpl_sortedInv _ _ _ h)
    | INS_APPEND =>
      exact insertImpl_sortedInv _ _ _ h
    | INS_SKIP =>
      rw [MPRList.insert]
      split
      · exact insertImpl_sortedInv _ _ _ h
      · exact h
  · intro l pref n h
    exact eraseImpl_sortedInv _ _ _ h
  · intro l h
    rw [MPRList.sort]
    split
    · exact h
    · exact replay_sortedInv _ _ (fun _ => List.Pairwise.nil)
  · intro b ws l2 h
    rw [MPRList.wireDecode] at h
    split at h
    · exact absurd h (by simp)
    · rcases wireDecodeBody_ok b ws l2 h with ⟨hf, _⟩
      exact foldlM_decodeStep_inv SortedInv insertImpl_sortedInv
        b.elements _ l2 hf (fun _ => List.Pairwise.nil)
  · intro l p n h
    have herase : (l.eraseImpl none n).1.m_dels =
        l.m_dels.filter (fun d => !(d.name == n)) := by
      rw [eraseImpl_dels]
      simp [eraseMatch]
    refine ⟨?_, ?_, ?_⟩
    · rw [MPRList.insert]
      rw [insertImpl_dels_of_unsorted _ _ _
        (by rw [eraseImpl_isSorted]; exact h), herase]
    · rw [MPRList.insert, insertImpl_dels_of_unsorted _ _ _ h]
    · rw [MPRList.insert]
      split
      · exact Or.inr (insertImpl_dels_of_unsorted _ _ _ h)
      · exact Or.inl rfl
  · intro l pref n
    exact eraseImpl_dels l pref n

/-- Witness for C2: the insert-preserves-sortedness conjunct at a concrete
sorted list, and the unsorted-append shape at the concrete unsorted list. -/
theorem sorted_flag_invariant_witness :
    (SortedInv sampleSorted ∧
      SortedInv (sampleSorted.insert 7 ⟨3⟩ .INS_APPEND).1) ∧
    (sampleUnsorted.m_isSorted = false ∧
      (sampleUnsorted.insert 7 ⟨2⟩ .INS_APPEND).1.m_dels =
        sampleUnsorted.m_dels ++ [⟨7, ⟨2⟩⟩]) :=
  ⟨⟨by intro _; rw [SortedDels_iff]; decide,
    sorted_flag_invariant.1 sampleSorted 7 ⟨3⟩ .INS_APPEND
      (by intro _; rw [SortedDels_iff]; decide)⟩,
    ⟨rfl,
      (sorted_flag_invariant.2.2.2.2.1 sampleUnsorted 7 ⟨2⟩ rfl).2.1⟩⟩

/-- C3: `sort()` is the identity on an already-sorted list; otherwise it is
exactly the replay of the snapshot of the entries, in original order,
through the sorted insertion procedure, after which the flag is true, the
entries are in non-decreasing Delegation order, and they are a permutation
of the original entries. -/
theorem sort_spec :
    (∀ l : MPRList, l.m_isSorted = true → l.sort = l) ∧
    (∀ l : MPRList, l.m_isSorted = false →
      l.sort = replayInsertImpl { m_isSorted := true, m_dels := [] }
        l.m_dels) ∧
    (∀ l : MPRList, l.sort.m_isSorted = true) ∧
    (∀ l : MPRList, l.m_isSorted = false → SortedDels l.sort.m_dels) ∧
    (∀ l : MPRList, List.Perm l.sort.m_dels l.m_dels) := by
  have h2 : ∀ l : MPRList, l.m_isSorted = false →
      l.sort = replayInsertImpl { m_isSorted := true, m_dels := [] }
        l.m_dels := by
    intro l h
    simp [MPRList.sort, h]
  refine ⟨?_, h2, ?_, ?_, ?_⟩
  · intro l h
    simp [MPRList.sort, h]
  · intro l
    rw [MPRList.sort]
    split
    · assumption
    · rw [replay_isSorted]
  · intro l h
    rw [h2 l h]
    exact replay_sortedInv l.m_dels { m_isSorted := true, m_dels := [] }
      (fun _ => List.Pairwise.nil) (by rw [replay_isSorted])
  · intro l
    cases hf : l.m_isSorted with
    | true => simp [MPRList.sort, hf]
    | false =>
      rw [h2 l hf]
      simpa using replay_perm l.m_dels
        { m_isSorted := true, m_dels := [] }

/-- Witness for C3 at the spec's concrete scenario: sorting the unsorted
sample produces a sorted permutation; sorting the sorted sample is a
no-op. -/
theorem sort_spec_witness :
    (sampleUnsorted.m_isSorted = false ∧
      SortedDels sampleUnsorted.sort.m_dels) ∧
    (sampleSorted.m_isSorted = true ∧ sampleSorted.sort = sampleSorted) :=
  ⟨⟨rfl, sort_spec.2.2.2.1 sampleUnsorted rfl⟩,
    ⟨rfl, sort_spec.1 sampleSorted rfl⟩⟩

/-- C4: insert with `INS_REPLACE` first erases every entry with the given
name (any preference), then inserts the new entry, and returns true; the
result has exactly one entry with that name and its preference is the new
one. -/
theorem insert_replace_spec (l : MPRList) (p : Nat) (n : Name) :
    (l.insert p n .INS_REPLACE).2 = true ∧
    (l.insert p n .INS_REPLACE).1 =
      (l.eraseImpl none n).1.insertImpl p n ∧
    (l.insert p n .INS_REPLACE).1.m_dels.countP
      (fun d => d.name == n) = 1 ∧
    (∀ d ∈ (l.insert p n .INS_REPLACE).1.m_dels,
      d.name = n → d.preference = p) := by
  have herase : (l.eraseImpl none n).1.m_dels =
      l.m_dels.filter (fun d => !(d.name == n)) := by
    rw [eraseImpl_dels]
    simp [eraseMatch]
  have hzero : (l.eraseImpl none n).1.m_dels.countP
      (fun d => d.name == n) = 0 := by
    rw [herase, List.countP_eq_zero]
    intro a ha
    have := (List.mem_filter.mp ha).2
    simpa using this
  have hperm : List.Perm (l.insert p n .INS_REPLACE).1.m_dels
      ((⟨p, n⟩ : Delegation) :: (l.eraseImpl none n).1.m_dels) :=
    insertImpl_perm _ _ _
  refine ⟨rfl, rfl, ?_, ?_⟩
  · rw [hperm.countP_eq, List.countP_cons]
    simp [hzero]
  · intro d hd hdn
    rcases List.mem_cons.mp (hperm.mem_iff.mp hd) with heq | hmem
    · rw [heq]
    · exfalso
      rw [herase] at hmem
      have := (List.mem_filter.mp hmem).2
      simp [hdn] at this

/-- Witness for C4 at a concrete input: replacing name 2 in the sorted
sample list. -/
theorem insert_replace_spec_witness :
    (sampleSorted.insert 7 ⟨2⟩ .INS_REPLACE).2 = true ∧
    (sampleSorted.insert 7 ⟨2⟩ .INS_REPLACE).1 =
      (sampleSorted.eraseImpl none ⟨2⟩).1.insertImpl 7 ⟨2⟩ ∧
    (sampleSorted.insert 7 ⟨2⟩ .INS_REPLACE).1.m_dels.countP
      (fun d => d.name == ⟨2⟩) = 1 ∧
    (∀ d ∈ (sampleSorted.insert 7 ⟨2⟩ .INS_REPLACE).1.m_dels,
      d.name = ⟨2⟩ → d.preference = 7) :=
  insert_replace_spec sampleSorted 7 ⟨2⟩

/-- C9: `operator==` holds iff the two entry sequences are element-wise
equal in order; the sortedness flag does not participate, so two lists with
the same entries and different flags compare equal, and lists with the same
delegations in different order compare unequal. -/
theorem operatorEq_spec :
    (∀ a b : MPRList, MPRList.eq a b = true ↔ a.m_dels = b.m_dels) ∧
    (∀ (s1 s2 : Bool) (ds : List Delegation),
      MPRList.eq { m_isSorted := s1, m_dels := ds }
        { m_isSorted := s2, m_dels := ds } = true) ∧
    (∀ a b : MPRList, a.m_dels ≠ b.m_dels → MPRList.eq a b = false) := by
  have h1 : ∀ a b : MPRList, MPRList.eq a b = true ↔
      a.m_dels = b.m_dels := by
    intro a b
    simp [MPRList.eq]
  refine ⟨h1, ?_, ?_⟩
  · intro s1 s2 ds
    rw [h1]
  · intro a b h
    rw [← Bool.not_eq_true]
    intro hc
    exact h ((h1 a b).mp hc)

/-- Witness for C9: the sorted entry sequence with both flag values
compares equal; the two orderings of the sample entries compare unequal. -/
theorem operatorEq_spec_witness :
    MPRList.eq { m_isSorted := false, m_dels := sampleSorted.m_dels }
      { m_isSorted := true, m_dels := sampleSorted.m_dels } = true ∧
    (sampleUnsorted.m_dels ≠ sampleSorted.m_dels ∧
      MPRList.eq sampleUnsorted sampleSorted = false) :=
  ⟨operatorEq_spec.2.1 false true sampleSorted.m_dels,
    ⟨by decide, operatorEq_spec.2.2 sampleUnsorted sampleSorted
      (by decide)⟩⟩

/-- C10: insert (under each of the three policies) and every erase form
leave `m_isSorted` unchanged; `sort` sets it to true and `wireDecode` sets
it to `wantSort`. -/
theorem flag_frame :
    (∀ (l : MPRList) (p : Nat) (n : Name)
        (pol : InsertConflictResolution),
      (l.insert p n pol).1.m_isSorted = l.m_isSorted) ∧
    (∀ (l : MPRList) (pref : Option Nat) (n : Name),
      (l.eraseImpl pref n).1.m_isSorted = l.m_isSorted) ∧
    (∀ (l : MPRList) (p : Nat) (n : Name),
      (l.erase p n).1.m_isSorted = l.m_isSorted) ∧
    (∀ (l : MPRList) (d : Delegation),
      (l.eraseDel d).1.m_isSorted = l.m_isSorted) ∧
    (∀ (l : MPRList) (n : Name),
      (l.eraseName n).1.m_isSorted = l.m_isSorted) ∧
    (∀ l : MPRList, l.sort.m_isSorted = true) ∧
    (∀ (b : Block) (ws : Bool) (l2 : MPRList),
      MPRList.wireDecode b ws = .ok l2 → l2.m_isSorted = ws) := by
  have he : ∀ (l : MPRList) (pref : Option Nat) (n : Name),
      (l.eraseImpl pref n).1.m_isSorted = l.m_isSorted :=
    eraseImpl_isSorted
  refine ⟨?_, he, ?_, ?_, ?_, ?_, ?_⟩
  · intro l p n pol
    cases pol with
    | INS_REPLACE =>
      rw [MPRList.insert]
      show ((l.eraseImpl none n).1.insertImpl p n).m_isSorted =
        l.m_isSorted
      rw [insertImpl_isSorted, he]
    | INS_APPEND =>
      rw [MPRList.insert]
      exact insertImpl_isSorted l p n
    | INS_SKIP =>
      rw [MPRList.insert]
      split
      · exact insertImpl_isSorted l p n
      · rfl
  · intro l p n
    exact he l (some p) n
  · intro l d
    exact he l (some d.preference) d.name
  · intro l n
    exact he l none n
  · intro l
    rw [MPRList.sort]
    split
    · assumption
    · rw [replay_isSorted]
  · intro b ws l2 h
    rw [MPRList.wireDecode] at h
    split at h
    · exact absurd h (by simp)
    · rcases wireDecodeBody_ok b ws l2 h with ⟨hf, _⟩
      exact foldlM_decodeStep_inv (fun l => l.m_isSorted = ws)
        (fun l p n hp => by
          show (l.insertImpl p n).m_isSorted = ws
          rw [insertImpl_isSorted]
          exact hp)
        b.elements _ l2 hf rfl

/-- Witness for C10: the decode conjunct at a concrete decoded block, and
insert at a concrete list. -/
theorem flag_frame_witness :
    (sampleUnsorted.insert 7 ⟨9⟩ .INS_SKIP).1.m_isSorted =
      sampleUnsorted.m_isSorted ∧
    (MPRList.wireDecode (.mk 30 [.mk 31 [.mk 30 [] (.nni 4),
        .mk 7 [] (.nameData ⟨6⟩)] .composite] .composite) false =
      .ok { m_isSorted := false, m_dels := [⟨4, ⟨6⟩⟩] } ∧
      ({ m_isSorted := false, m_dels := [⟨4, ⟨6⟩⟩] } :
        MPRList).m_isSorted = false) :=
  ⟨flag_frame.1 sampleUnsorted 7 ⟨9⟩ .INS_SKIP,
    ⟨rfl, flag_frame.2.2.2.2.2.2
      (.mk 30 [.mk 31 [.mk 30 [] (.nni 4),
        .mk 7 [] (.nameData ⟨6⟩)] .composite] .composite) false
      { m_isSorted := false, m_dels := [⟨4, ⟨6⟩⟩] } rfl⟩⟩

/-- True iff a result is a failure carrying the component's own
`MPRList::Error` (as opposed to `std::invalid_argument` or success). -/
def isDomainError : Except Err Block → Bool
  | .error (.error _) => true
  | _ => false

/-- C5 counterexample: encoding the empty list under the unregistered outer
tag 99 fails with `std::invalid_argument` (the tag check runs first), not
with the component's domain Error, so "encoding a MPRList with zero entries
always fails with the component's domain Error" is false as stated. -/
theorem encode_empty_invalid_tag_counterexample :
    sampleEmpty.m_dels = [] ∧
    isDomainError (sampleEmpty.wireEncodeBlock 99) = false ∧
    sampleEmpty.wireEncodeBlock 99 =
      .error (.invalidArgument ("Unexpected TLV-TYPE " ++ toString 99 ++
        " while encoding MPRList")) :=
  ⟨rfl, rfl, rfl⟩

/-- C5 (amended): with a valid outer tag, encoding a `MPRList` with zero
entries fails with the component's domain Error (with an invalid tag the
invalid-argument failure takes precedence); decoding a block that parses to
zero delegation children always fails with the same Error kind; and a list
successfully decoded from the wire is never empty. -/
theorem empty_rejection (l : MPRList) (type : Nat) (b : Block) (ws : Bool)
    (hty : MPRList.isValidTlvType type = true) (hempty : l.m_dels = [])
    (hel : b.elements = []) :
    l.wireEncodeBlock type = .error (.error "Empty MPRList") ∧
    l.wireEncodeEstimate type = .error (.error "Empty MPRList") ∧
    l.wireEncodeBuffer type = .error (.error "Empty MPRList") ∧
    (∃ msg, MPRList.wireDecode b ws = .error (.error msg)) ∧
    (∀ (b' : Block) (ws' : Bool) (l2 : MPRList),
      MPRList.wireDecode b' ws' = .ok l2 → l2.m_dels ≠ []) := by
  refine ⟨?_, ?_, ?_, ?_, ?_⟩
  · simp [MPRList.wireEncodeBlock, hty, MPRList.size, hempty]
  · simp [MPRList.wireEncodeEstimate, MPRList.wireEncodeImpl, hty,
      MPRList.size, hempty, Except.map]
  · simp [MPRList.wireEncodeBuffer, MPRList.wireEncodeImpl, hty,
      MPRList.size, hempty]
  · cases hv : MPRList.isValidTlvType b.type with
    | false => exact ⟨_, wireDecode_invalid b ws hv⟩
    | true =>
      refine ⟨"Empty MPRList", ?_⟩
      rw [wireDecode_valid b ws hv, MPRList.wireDecodeBody, hel]
      rfl
  · intro b' ws' l2 h
    rw [MPRList.wireDecode] at h
    split at h
    · exact absurd h (by simp)
    · exact (wireDecodeBody_ok b' ws' l2 h).2

/-- Witness for C5 (amended) at concrete inputs: the empty list with the
content tag, and an empty content block. -/
theorem empty_rejection_witness :
    (MPRList.isValidTlvType 21 = true ∧ sampleEmpty.m_dels = [] ∧
      Block.elements (.mk 21 [] .composite) = []) ∧
    (sampleEmpty.wireEncodeBlock 21 = .error (.error "Empty MPRList") ∧
      sampleEmpty.wireEncodeEstimate 21 =
        .error (.error "Empty MPRList") ∧
      sampleEmpty.wireEncodeBuffer 21 = .error (.error "Empty MPRList") ∧
      (∃ msg, MPRList.wireDecode (.mk 21 [] .composite) false =
        .error (.error msg)) ∧
      (∀ (b' : Block) (ws' : Bool) (l2 : MPRList),
        MPRList.wireDecode b' ws' = .ok l2 → l2.m_dels ≠ [])) :=
  ⟨⟨rfl, rfl, rfl⟩,
    empty_rejection sampleEmpty 21 (.mk 21 [] .composite) false
      rfl rfl rfl⟩

/-- C6: encoding under an outer TLV-TYPE other than the two registered
values fails with `std::invalid_argument` and decoding such a block fails
with the component's Error; under either registered tag, neither operation
fails on account of the tag — encode succeeds whenever the list is
non-empty, and decode proceeds to the body that never re-examines the
outer tag. -/
theorem tlv_type_validation :
    (∀ (l : MPRList) (type : Nat),
      MPRList.isValidTlvType type = false →
      l.wireEncodeBlock type = .error (.invalidArgument
        ("Unexpected TLV-TYPE " ++ toString type ++
          " while encoding MPRList"))) ∧
    (∀ (σ : Type) (impl : EncodingImpl σ) (enc : σ) (l : MPRList)
        (type : Nat), MPRList.isValidTlvType type = false →
      l.wireEncodeImpl impl type enc = .error (.invalidArgument
        ("Unexpected TLV-TYPE " ++ toString type ++
          " while encoding MPRList"))) ∧
    (∀ (b : Block) (ws : Bool), MPRList.isValidTlvType b.type = false →
      MPRList.wireDecode b ws = .error (.error
        ("Unexpected TLV-TYPE " ++ toString b.type ++
          " while decoding MPRList"))) ∧
    (∀ (l : MPRList) (type : Nat), MPRList.isValidTlvType type = true →
      l.m_dels ≠ [] → ∃ blk, l.wireEncodeBlock type = .ok blk) ∧
    (∀ (σ : Type) (impl : EncodingImpl σ) (enc : σ) (l : MPRList)
        (type : Nat), MPRList.isValidTlvType type = true →
      l.m_dels ≠ [] → ∃ out, l.wireEncodeImpl impl type enc = .ok out) ∧
    (∀ (b : Block) (ws : Bool), MPRList.isValidTlvType b.type = true →
      MPRList.wireDecode b ws = MPRList.wireDecodeBody b ws) := by
  refine ⟨?_, ?_, ?_, ?_, ?_, ?_⟩
  · intro l type h
    simp [MPRList.wireEncodeBlock, h]
  · intro σ impl enc l type h
    simp [MPRList.wireEncodeImpl, h]
  · intro b ws h
    exact wireDecode_invalid b ws h
  · intro l type hty hne
    exact ⟨_, wireEncodeBlock_ok l type hty hne⟩
  · intro σ impl enc l type hty hne
    have hsz : (l.size == 0) = false := by
      simpa [MPRList.size] using hne
    simp [MPRList.wireEncodeImpl, hty, hsz]
  · intro b ws h
    exact wireDecode_valid b ws h

/-- Witness for C6: tag 99 is rejected by both directions; the two
registered tags are accepted. -/
theorem tlv_type_validation_witness :
    (MPRList.isValidTlvType 99 = false ∧
      sampleSorted.wireEncodeBlock 99 = .error (.invalidArgument
        ("Unexpected TLV-TYPE " ++ toString 99 ++
          " while encoding MPRList")) ∧
      MPRList.wireDecode (.mk 99 [] .composite) true = .error (.error
        ("Unexpected TLV-TYPE " ++ toString 99 ++
          " while decoding MPRList"))) ∧
    (MPRList.isValidTlvType 30 = true ∧ sampleSorted.m_dels ≠ [] ∧
      ∃ blk, sampleSorted.wireEncodeBlock 30 = .ok blk) :=
  ⟨⟨rfl, tlv_type_validation.1 sampleSorted 99 rfl,
    tlv_type_validation.2.2.1 (.mk 99 [] .composite) true rfl⟩,
    ⟨rfl, by decide,
      tlv_type_validation.2.2.2.1 sampleSorted 30 rfl (by decide)⟩⟩

/-- C7: within a delegation child, a missing first grandchild or a first
grandchild that is not a Preference (which covers a Name standing before
the Preference) makes decode fail with the missing-Preference Error; a
Preference payload the integer codec rejects fails with the nested
invalid-Preference Error; the analogous checks hold for the Name field that
must come second; and any such per-child failure is the result of the whole
`wireDecode`. -/
theorem malformed_delegation_rejection :
    (∀ pay : Payload, decodeDelegation (.mk tlv.LinkDelegation [] pay) =
      .error (.error "Missing Preference field in Delegation")) ∧
    (∀ (c : Block) (rest : List Block) (pay : Payload),
      c.type ≠ tlv.LinkPreference →
      decodeDelegation (.mk tlv.LinkDelegation (c :: rest) pay) =
        .error (.error "Missing Preference field in Delegation")) ∧
    (∀ (c : Block) (rest : List Block) (pay : Payload),
      c.type = tlv.LinkPreference → readNonNegativeInteger c = none →
      decodeDelegation (.mk tlv.LinkDelegation (c :: rest) pay) =
        .error (.nested "Invalid Preference field in Delegation")) ∧
    (∀ (c : Block) (p : Nat) (pay : Payload),
      c.type = tlv.LinkPreference → readNonNegativeInteger c = some p →
      decodeDelegation (.mk tlv.LinkDelegation [c] pay) =
        .error (.error "Missing Name field in Delegation")) ∧
    (∀ (c c2 : Block) (rest : List Block) (p : Nat) (pay : Payload),
      c.type = tlv.LinkPreference → readNonNegativeInteger c = some p →
      c2.type ≠ tlv.Name →
      decodeDelegation (.mk tlv.LinkDelegation (c :: c2 :: rest) pay) =
        .error (.error "Missing Name field in Delegation")) ∧
    (∀ (c c2 : Block) (rest : List Block) (p : Nat) (pay : Payload),
      c.type = tlv.LinkPreference → readNonNegativeInteger c = some p →
      c2.type = tlv.Name → Name.wireDecodeBlock c2 = none →
      decodeDelegation (.mk tlv.LinkDelegation (c :: c2 :: rest) pay) =
        .error (.nested "Invalid Name field in Delegation")) ∧
    (∀ (b : Block) (ws : Bool) (c : Block) (rest : List Block) (e : Err),
      MPRList.isValidTlvType b.type = true → b.elements = c :: rest →
      decodeDelegation c = .error e →
      MPRList.wireDecode b ws = .error e) := by
  refine ⟨?_, ?_, ?_, ?_, ?_, ?_, ?_⟩
  · intro pay
    rfl
  · intro c rest pay h
    obtain ⟨ct, ccs, cp⟩ := c
    simp only [Block.type] at h
    simp [decodeDelegation, Block.type, Block.elements, h]
  · intro c rest pay ht hr
    obtain ⟨ct, ccs, cp⟩ := c
    simp only [Block.type] at ht
    subst ht
    simp [decodeDelegation, Block.type, Block.elements, hr]
  · intro c p pay ht hr
    obtain ⟨ct, ccs, cp⟩ := c
    simp only [Block.type] at ht
    subst ht
    simp [decodeDelegation, Block.type, Block.elements, hr]
  · intro c c2 rest p pay ht hr h2
    obtain ⟨ct, ccs, cp⟩ := c
    obtain ⟨dt, dcs, dp⟩ := c2
    simp only [Block.type] at ht h2
    subst ht
    simp [decodeDelegation, Block.type, Block.elements, hr, h2]
  · intro c c2 rest p pay ht hr h2 hn
    obtain ⟨ct, ccs, cp⟩ := c
    obtain ⟨dt, dcs, dp⟩ := c2
    simp only [Block.type] at ht h2
    subst ht h2
    simp [decodeDelegation, Block.type, Block.elements, hr, hn]
  · intro b ws c rest e hty hel hd
    rw [wireDecode_valid b ws hty, MPRList.wireDecodeBody, hel,
      List.foldlM_cons]
    have hstep : decodeStep { m_isSorted := ws, m_dels := [] } c =
        .error e := by
      rw [decodeStep, hd]
      rfl
    rw [hstep]
    rfl

/-- Witness for C7 at concrete malformed blocks: a delegation whose Name
stands before its Preference, one whose Preference payload is corrupt, and
a whole block failing on its first child. -/
theorem malformed_delegation_rejection_witness :
    (Block.type (.mk 7 [] (.nameData ⟨3⟩)) ≠ tlv.LinkPreference ∧
      decodeDelegation (.mk tlv.LinkDelegation
        [.mk 7 [] (.nameData ⟨3⟩), .mk 30 [] (.nni 5)] .composite) =
        .error (.error "Missing Preference field in Delegation")) ∧
    (Block.type (.mk 30 [] .corrupt) = tlv.LinkPreference ∧
      readNonNegativeInteger (.mk 30 [] .corrupt) = none ∧
      decodeDelegation (.mk tlv.LinkDelegation
        [.mk 30 [] .corrupt, .mk 7 [] (.nameData ⟨3⟩)] .composite) =
        .error (.nested "Invalid Preference field in Delegation")) ∧
    MPRList.wireDecode (.mk 30
      [.mk tlv.LinkDelegation [] .composite] .composite) true =
      .error (.error "Missing Preference field in Delegation") :=
  ⟨⟨by decide,
    malformed_delegation_rejection.2.1 (.mk 7 [] (.nameData ⟨3⟩))
      [.mk 30 [] (.nni 5)] .composite (by decide)⟩,
  ⟨rfl, rfl,
    malformed_delegation_rejection.2.2.1 (.mk 30 [] .corrupt)
      [.mk 7 [] (.nameData ⟨3⟩)] .composite rfl rfl⟩,
  malformed_delegation_rejection.2.2.2.2.2.2 (.mk 30
      [.mk tlv.LinkDelegation [] .composite] .composite) true
    (.mk tlv.LinkDelegation [] .composite) [] _ rfl rfl
    (malformed_delegation_rejection.1 .composite)⟩

/-! ### Encode-mode lemmas -/

/-- The number of bytes one delegation contributes to the wire: name,
Preference block, this delegation's TLV-LENGTH, and its TLV-TYPE. -/
def delegationWireSize (d : Delegation) : Nat :=
  let n1 := Name.wireSize d.name
  let n2 := varNumberSize tlv.LinkPreference +
    varNumberSize (nniSize d.preference) + nniSize d.preference
  let n3 := varNumberSize (n1 + n2)
  let n4 := varNumberSize tlv.LinkDelegation
  n1 + n2 + n3 + n4

/-- The output spans one delegation contributes, front (earliest byte)
first. -/
def delegationAtoms (d : Delegation) : List Atom :=
  [ .varNum tlv.LinkDelegation,
    .varNum (Name.wireSize d.name + (varNumberSize tlv.LinkPreference +
      varNumberSize (nniSize d.preference) + nniSize d.preference)),
    .varNum tlv.LinkPreference,
    .varNum (nniSize d.preference),
    .nniValue d.preference,
    .nameBlock d.name ]

theorem encodeDelegationStep_estimator (t : Nat) (d : Delegation) :
    encodeDelegationStep estimatorImpl ((), t) d =
      ((), t + delegationWireSize d) :=
  rfl

theorem encodeDelegationStep_encoder (buf : List Atom) (t : Nat)
    (d : Delegation) :
    encodeDelegationStep encoderImpl (buf, t) d =
      (delegationAtoms d ++ buf, t + delegationWireSize d) :=
  rfl

theorem delegationAtoms_size (d : Delegation) :
    ((delegationAtoms d).map Atom.size).sum = delegationWireSize d := by
  simp [delegationAtoms, delegationWireSize, Atom.size]
  omega

theorem foldl_encodeStep_snd (ds : List Delegation) :
    ∀ (t : Nat) (buf : List Atom),
      (List.foldl (encodeDelegationStep estimatorImpl) ((), t) ds).2 =
        (List.foldl (encodeDelegationStep encoderImpl) (buf, t) ds).2 := by
  induction ds with
  | nil => intro t buf; rfl
  | cons d ds ih =>
    intro t buf
    rw [List.foldl_cons, List.foldl_cons, encodeDelegationStep_estimator,
      encodeDelegationStep_encoder]
    exact ih (t + delegationWireSize d) _

theorem foldl_encodeStep_sum (ds : List Delegation) :
    ∀ (buf : List Atom) (t : Nat),
      (((List.foldl (encodeDelegationStep encoderImpl)
          (buf, t) ds).1.map Atom.size).sum + t =
        (buf.map Atom.size).sum +
          (List.foldl (encodeDelegationStep encoderImpl)
            (buf, t) ds).2) := by
  induction ds with
  | nil =>
    intro buf t
    rw [List.foldl_nil]
  | cons d ds ih =>
    intro buf t
    rw [List.foldl_cons, encodeDelegationStep_encoder]
    have h := ih (delegationAtoms d ++ buf) (t + delegationWireSize d)
    rw [List.map_append, List.sum_append, delegationAtoms_size] at h
    omega

theorem wireEncodeEstimate_ok (l : MPRList) (type : Nat)
    (hty : MPRList.isValidTlvType type = true)
    (hsz : (l.size == 0) = false) :
    l.wireEncodeEstimate type = .ok
      ((List.foldl (encodeDelegationStep estimatorImpl) ((), 0)
          l.m_dels.reverse).2 +
        varNumberSize (List.foldl (encodeDelegationStep estimatorImpl)
          ((), 0) l.m_dels.reverse).2 +
        varNumberSize type) := by
  rw [MPRList.wireEncodeEstimate, MPRList.wireEncodeImpl]
  cases hst : List.foldl (encodeDelegationStep estimatorImpl) ((), 0)
      l.m_dels.reverse with
  | mk e0 t0 =>
    simp [hty, hsz, hst, estimatorImpl, Except.map]

theorem wireEncodeBuffer_ok (l : MPRList) (type : Nat)
    (hty : MPRList.isValidTlvType type = true)
    (hsz : (l.size == 0) = false) :
    l.wireEncodeBuffer type = .ok
      (Atom.varNum type ::
        Atom.varNum (List.foldl (encodeDelegationStep encoderImpl)
          ([], 0) l.m_dels.reverse).2 ::
        (List.foldl (encodeDelegationStep encoderImpl) ([], 0)
          l.m_dels.reverse).1,
      (List.foldl (encodeDelegationStep encoderImpl) ([], 0)
          l.m_dels.reverse).2 +
        varNumberSize (List.foldl (encodeDelegationStep encoderImpl)
          ([], 0) l.m_dels.reverse).2 +
        varNumberSize type) := by
  rw [MPRList.wireEncodeBuffer, MPRList.wireEncodeImpl]
  cases hst : List.foldl (encodeDelegationStep encoderImpl) ([], 0)
      l.m_dels.reverse with
  | mk e0 t0 =>
    simp [hty, hsz, hst, encoderImpl]

/-- C8: for every list and valid outer type, the size-estimation mode and
the materializing mode of `wireEncode` return the same total byte length,
and the materializing mode's total equals the byte size of the output it
produced. -/
theorem wireEncode_modes_agree (l : MPRList) (type : Nat)
    (hty : MPRList.isValidTlvType type = true) :
    l.wireEncodeEstimate type = (l.wireEncodeBuffer type).map Prod.snd ∧
    (∀ (buf : List Atom) (total : Nat),
      l.wireEncodeBuffer type = .ok (buf, total) →
      (buf.map Atom.size).sum = total) := by
  by_cases hsz : (l.size == 0) = true
  · constructor
    · simp [MPRList.wireEncodeEstimate, MPRList.wireEncodeBuffer,
        MPRList.wireEncodeImpl, hty, hsz, Except.map]
    · intro buf total h
      rw [MPRList.wireEncodeBuffer, MPRList.wireEncodeImpl] at h
      simp [hty, hsz] at h
  · have hsz' : (l.size == 0) = false := by simpa using hsz
    have hE := wireEncodeEstimate_ok l type hty hsz'
    have hB := wireEncodeBuffer_ok l type hty hsz'
    have hsnd := foldl_encodeStep_snd l.m_dels.reverse 0 []
    constructor
    · rw [hE, hB]
      simp only [Except.map]
      rw [hsnd]
    · intro buf total h
      rw [hB] at h
      injection h with h
      rw [Prod.mk.injEq] at h
      obtain ⟨hbuf, htot⟩ := h
      subst hbuf
      subst htot
      have hsum := foldl_encodeStep_sum l.m_dels.reverse [] 0
      simp only [List.map_nil, List.sum_nil, Nat.add_zero,
        Nat.zero_add] at hsum
      simp only [List.map_cons, List.sum_cons, Atom.size]
      omega

/-- Witness for C8: both modes agree at the sorted sample list with the
forwarding-hint tag. -/
theorem wireEncode_modes_agree_witness :
    MPRList.isValidTlvType 30 = true ∧
    (sampleSorted.wireEncodeEstimate 30 =
      (sampleSorted.wireEncodeBuffer 30).map Prod.snd ∧
    (∀ (buf : List Atom) (total : Nat),
      sampleSorted.wireEncodeBuffer 30 = .ok (buf, total) →
      (buf.map Atom.size).sum = total)) :=
  ⟨rfl, wireEncode_modes_agree sampleSorted 30 rfl⟩

end ndn
